import Mathlib

/-!
Verification of the interactive-heatmap speed generator
(`internal/manager/generator_interactive_heatmap_speed.go`).

Modelling conventions:
* Go `float64` arithmetic is modelled with exact rationals (`ℚ`); IEEE
  rounding is not modelled.  The special IEEE values (±∞, NaN) produced by a
  zero time delta are modelled separately with the `EFloat` type below.
* Go `int`/`int64` are modelled with `ℤ`; Go's float→int conversion
  (truncation toward zero) is `trunc`.
* Go slices are modelled as lists; Go's stable `sort.SliceStable` is
  modelled with `List.insertionSort` (a stable sort).  `sort.Slice` and
  `sort.Ints` are unstable sorts in Go; they are also modelled with
  `insertionSort`, a determinization that agrees with any correct sort
  whenever the keys are distinct.
* The external color library `go-colorful` is not part of this repository:
  its perceptual blends (`BlendLab`, `BlendHcl`) are taken as parameters of
  the definitions that call them; theorems assume only their endpoint laws
  (`blend c d 0 = c`, `blend c d 1 = d`), which the mathematical blends
  satisfy exactly.  `BlendRgb` (a plain linear interpolation) and
  `Clamped` are modelled concretely.
* File I/O and PNG encoding are out of scope; `Generate` is modelled on an
  already-parsed document, and `RenderHeatmap` is represented by the
  gradient table it draws from.
-/

set_option maxRecDepth 4000

namespace Stash

/-- Go float→int conversion: truncation toward zero (exact-rational model). -/
def trunc (q : ℚ) : ℤ := if 0 ≤ q then ⌊q⌋ else ⌈q⌉

/-- `Action` from the source: a timed move.  `At`/`Pos` are the parsed
fields; `Slope`, `Intensity`, `Speed` are the derived metric fields
(zero-valued after JSON unmarshalling). -/
structure Action where
  At : ℤ
  Pos : ℤ
  Slope : ℚ
  Intensity : ℤ
  Speed : ℚ
deriving Repr, DecidableEq

/-- An action as it comes out of parsing: derived fields zeroed. -/
def mkAction (t p : ℤ) : Action := ⟨t, p, 0, 0, 0⟩

/-- `Script` from the source (only the fields the pipeline uses). -/
structure Script where
  Actions : List Action
deriving Repr, DecidableEq

/-- Comparison used by `LoadFunscriptData`'s stable sort (Go:
`funscript.Actions[i].At < funscript.Actions[j].At` under `SliceStable`,
which orders non-decreasingly by `At` keeping ties in input order). -/
def atLE (a b : Action) : Prop := a.At ≤ b.At

instance : DecidableRel atLE := fun a b => inferInstanceAs (Decidable (a.At ≤ b.At))

instance : IsTotal Action atLE := ⟨fun a b => Int.le_total a.At b.At⟩

instance : IsTrans Action atLE := ⟨fun _ _ _ h1 h2 => le_trans h1 h2⟩

/-- The validity test from `LoadFunscriptData`:
`x >= 0 && x < g.sceneDurationMilli`. -/
def isValid (dur : ℤ) (a : Action) : Bool := decide (0 ≤ a.At) && decide (a.At < dur)

/-- The pure part of `LoadFunscriptData`: stable sort by `At`, then the
in-place compaction keeping only valid timestamps (order preserved). -/
def loadValidate (dur : ℤ) (l : List Action) : List Action :=
  (l.insertionSort atLE).filter (isValid dur)

/-- The body of `UpdateIntensityAndSpeed`'s loop for one action `cur`
with predecessor `prev` (the source reads only `At`/`Pos` of the
predecessor, so in-place update of the predecessor is irrelevant):
`slope = Min(Max(1/(2*(t1-t2)/1000), 0), 20)`,
`intensity = int64(slope * Abs(p1-p2))`,
`speed = Abs(p1-p2) / (t1-t2) * 1000`. -/
def updateAction (prev cur : Action) : Action :=
  let slope := min (max (1 / (2 * ((cur.At - prev.At : ℤ) : ℚ) / 1000)) 0) 20
  let intensity := trunc (slope * |((cur.Pos - prev.Pos : ℤ) : ℚ)|)
  let speed := |((cur.Pos - prev.Pos : ℤ) : ℚ)| / ((cur.At - prev.At : ℤ) : ℚ) * 1000
  { cur with Slope := slope, Intensity := intensity, Speed := speed }

/-- The loop of `UpdateIntensityAndSpeed` from index 1 on, threading the
(already updated) predecessor; `updateAction` reads only the `At`/`Pos`
fields, which it never changes, so this equals the in-place Go loop. -/
def updateGo (prev : Action) : List Action → List Action
  | [] => []
  | c :: rest =>
    let c' := updateAction prev c
    c' :: updateGo c' rest

/-- `(*Script).UpdateIntensityAndSpeed`: index 0 is skipped (`continue`),
every later action gets its derived metric fields. -/
def UpdateIntensityAndSpeed : List Action → List Action
  | [] => []
  | a :: rest => a :: updateGo a rest

/-- Comparison used by `CalculateMedian`'s sort (Go: `Speed[i] < Speed[j]`
under `sort.Slice`; modelled by the stable sort, which agrees with any
correct sort of the speeds). -/
def speedLE (a b : Action) : Prop := a.Speed ≤ b.Speed

instance : DecidableRel speedLE := fun a b => inferInstanceAs (Decidable (a.Speed ≤ b.Speed))

instance : IsTotal Action speedLE := ⟨fun a b => le_total a.Speed b.Speed⟩

instance : IsTrans Action speedLE := ⟨fun _ _ _ h1 h2 => le_trans h1 h2⟩

/-- The median value computed by `(*Script).CalculateMedian`: sort by
`Speed`, take `mNumber = len/2`; odd length → `int(a[m].Speed)`, even
length → `int((a[m-1].Speed + a[m].Speed) / 2)`.  (Go panics at index
`-1` on an empty list; the `getD` default is never read for non-empty
input, the only way the source calls it.) -/
def CalculateMedianVal (l : List Action) : ℤ :=
  let sorted := l.insertionSort speedLE
  let m := sorted.length / 2
  if sorted.length % 2 ≠ 0 then trunc ((sorted.getD m (mkAction 0 0)).Speed)
  else trunc (((sorted.getD (m - 1) (mkAction 0 0)).Speed + (sorted.getD m (mkAction 0 0)).Speed) / 2)

/-- `(*Script).CalculateMedian` with its side effect: `sort.Slice` sorts
`funscript.Actions` in place, so the call returns the median *and* the
mutated receiver (its `Actions` reordered by `Speed`). -/
def CalculateMedian (s : Script) : ℤ × Script :=
  (CalculateMedianVal s.Actions, ⟨s.Actions.insertionSort speedLE⟩)

/-- One time bin of `getGradientTable` (Go's anonymous struct
`{count int; intensity int; yRange [2]float64; at int64}`;
the spec calls `at` `lastActionAt`). -/
structure Segment where
  count : ℤ
  intensity : ℤ
  yRange : ℚ × ℚ
  lastActionAt : ℤ
deriving Repr, DecidableEq

/-- The zero value the Go `make` call fills the segments slice with. -/
def Segment.zero : Segment := ⟨0, 0, (0, 0), 0⟩

def windowSize : ℕ := 15

def backfillThreshold : ℤ := 500

/-- The per-action window statistics of `getGradientTable`: sort a copy of
the window, split at `len/2`, average each half.
(`yRange[0] = averageTop` from the upper half, `yRange[1] = averageBottom`
from the lower half.  For a singleton window Go's `0/0.0` is NaN; in the
rational model it is `0`; no claim depends on that value.) -/
def yRangeOfWindow (posList : List ℤ) : ℚ × ℚ :=
  let sortedPos := posList.insertionSort (fun a b : ℤ => a ≤ b)
  let bottomHalf := sortedPos.take (sortedPos.length / 2)
  let topHalf := sortedPos.drop (sortedPos.length / 2)
  let averageBottom := ((bottomHalf.sum : ℤ) : ℚ) / (bottomHalf.length : ℚ)
  let averageTop := ((topHalf.sum : ℤ) : ℚ) / (topHalf.length : ℚ)
  (averageTop, averageBottom)

/-- Bin index of an action timestamp:
`int(float64(a.At) / float64(maxts+1) * float64(numSegments))`, clamped
to `numSegments-1` from above (the `#3181` sanity check). -/
def segmentIndex (maxts : ℤ) (numSegments : ℕ) (t : ℤ) : ℤ :=
  let seg := trunc ((t : ℚ) / ((maxts : ℚ) + 1) * (numSegments : ℚ))
  if (numSegments : ℤ) ≤ seg then (numSegments : ℤ) - 1 else seg

/-- One iteration of `getGradientTable`'s binning loop: push the position
into the window (dropping the oldest beyond `windowSize`), recompute the
half averages, and update the action's bin: `at`/`yRange` overwritten,
`count`/`intensity` accumulated.  (A negative index would panic in Go;
it cannot occur for validated actions, and `Int.toNat` maps it to 0.) -/
def buildStep (maxts : ℤ) (numSegments : ℕ) (st : List ℤ × List Segment) (a : Action) :
    List ℤ × List Segment :=
  let posList0 := st.1 ++ [a.Pos]
  let posList := if windowSize < posList0.length then posList0.drop 1 else posList0
  let yr := yRangeOfWindow posList
  let idx := (segmentIndex maxts numSegments a.At).toNat
  let s := st.2.getD idx Segment.zero
  (posList,
    st.2.set idx
      { count := s.count + 1, intensity := s.intensity + a.Intensity,
        yRange := yr, lastActionAt := a.At })

/-- The binning loop of `getGradientTable` over all actions
(`maxts` is the last action's timestamp; Go indexes `Actions[len-1]`,
which panics on an empty list — the source only calls this non-empty). -/
def buildSegments (numSegments : ℕ) (acts : List Action) : List Segment :=
  let maxts := ((acts.getLast?).getD (mkAction 0 0)).At
  (acts.foldl (buildStep maxts numSegments) ([], List.replicate numSegments Segment.zero)).2

/-- The backfill loop of `getGradientTable`, with the running bin index
`i` and the tracked `lastSegment`: an empty bin whose gap
`int64(float64(i)/float64(numSegments)) - lastSegment.at` is below the
threshold inherits `count`/`intensity`/`yRange` (not `at`); a non-empty
bin becomes the new `lastSegment`. -/
def backfillGo (numSegments : ℕ) : ℕ → Segment → List Segment → List Segment
  | _, _, [] => []
  | i, lastSegment, s :: rest =>
    if s.count = 0 then
      if trunc ((i : ℚ) / (numSegments : ℚ)) - lastSegment.lastActionAt < backfillThreshold then
        ⟨lastSegment.count, lastSegment.intensity, lastSegment.yRange, s.lastActionAt⟩ ::
          backfillGo numSegments (i + 1) lastSegment rest
      else
        s :: backfillGo numSegments (i + 1) lastSegment rest
    else
      s :: backfillGo numSegments (i + 1) s rest

/-- The backfill pass: `lastSegment` starts as `segments[0]`, the loop
runs over all bins in order. -/
def backfillSegments (numSegments : ℕ) (segs : List Segment) : List Segment :=
  backfillGo numSegments 0 (segs.getD 0 Segment.zero) segs

/-- Modelled from the claim's words: the same backfill pass with the gap
condition dropped — every empty bin unconditionally inherits the tracked
`lastSegment`'s `count`/`intensity`/`yRange`. -/
def backfillAlwaysGo : Segment → List Segment → List Segment
  | _, [] => []
  | lastSegment, s :: rest =>
    if s.count = 0 then
      ⟨lastSegment.count, lastSegment.intensity, lastSegment.yRange, s.lastActionAt⟩ ::
        backfillAlwaysGo lastSegment rest
    else
      s :: backfillAlwaysGo s rest

/-- Modelled from the claim's words: unconditional backfill,
`lastSegment` initialized to segment 0. -/
def backfillAlways (segs : List Segment) : List Segment :=
  backfillAlwaysGo (segs.getD 0 Segment.zero) segs

/-- An RGB color (`colorful.Color`), components nominally in `[0,1]`. -/
structure Color where
  R : ℚ
  G : ℚ
  B : ℚ
deriving Repr, DecidableEq

/-- `colorful.Hex`: each two-digit hex component scaled by 255. -/
def hexColor (r g b : ℕ) : Color := ⟨(r : ℚ) / 255, (g : ℚ) / 255, (b : ℚ) / 255⟩

def colorBlue : Color := hexColor 0x1e 0x90 0xff

def colorGreen : Color := hexColor 0x22 0x8b 0x22

def colorYellow : Color := hexColor 0xff 0xd7 0x00

def colorRed : Color := hexColor 0xdc 0x14 0x3c

def colorPurple : Color := hexColor 0x80 0x00 0x80

def colorBlack : Color := hexColor 0x0f 0x00 0x1e

def colorBackground : Color := hexColor 0x30 0x40 0x4d

/-- `colorful.BlendRgb`: componentwise linear interpolation in RGB. -/
def blendRgb (c1 c2 : Color) (t : ℚ) : Color :=
  ⟨c1.R + t * (c2.R - c1.R), c1.G + t * (c2.G - c1.G), c1.B + t * (c2.B - c1.B)⟩

def clamp01 (x : ℚ) : ℚ := min (max x 0) 1

/-- `colorful.Color.Clamped`: clamp each component into `[0,1]`. -/
def Clamped (c : Color) : Color := ⟨clamp01 c.R, clamp01 c.G, clamp01 c.B⟩

/-- A color is in gamut when all components already lie in `[0,1]`
(then `Clamped` is the identity). -/
def InGamut (c : Color) : Prop :=
  0 ≤ c.R ∧ c.R ≤ 1 ∧ 0 ≤ c.G ∧ c.G ≤ 1 ∧ 0 ≤ c.B ∧ c.B ≤ 1

instance (c : Color) : Decidable (InGamut c) := by unfold InGamut; infer_instance

/-- `getSegmentColor`: the fixed 7-anchor piecewise blend with step 60.
`blendLab` stands for the external library's `BlendLab` (perceptual
blend); the `(180,240]` branch uses the linear-RGB `blendRgb` instead. -/
def getSegmentColor (blendLab : Color → Color → ℚ → Color) (intensity : ℚ) : Color :=
  let stepSize : ℚ := 60
  if intensity ≤ 0.001 then colorBackground
  else if intensity ≤ 1 * stepSize then
    blendLab colorBlue colorGreen ((intensity - 0 * stepSize) / stepSize)
  else if intensity ≤ 2 * stepSize then
    blendLab colorGreen colorYellow ((intensity - 1 * stepSize) / stepSize)
  else if intensity ≤ 3 * stepSize then
    blendLab colorYellow colorRed ((intensity - 2 * stepSize) / stepSize)
  else if intensity ≤ 4 * stepSize then
    blendRgb colorRed colorPurple ((intensity - 3 * stepSize) / stepSize)
  else
    blendLab colorPurple colorBlack (min ((intensity - 4 * stepSize) / (5 * stepSize)) 1)

/-- A gradient stop (one entry of the Go `GradientTable`). -/
structure GradientStop where
  Col : Color
  Pos : ℚ
  YRange : ℚ × ℚ
deriving Repr, DecidableEq

def defaultStop : GradientStop := ⟨⟨0, 0, 0⟩, 0, (0, 0)⟩

/-- `(Script).getGradientTable`: bin, backfill, then one stop per bin with
`Pos = i/(numSegments-1)`, the bin's `yRange` verbatim, and the mapped
color of the bin's mean intensity (`0.0` for a still-empty bin). -/
def getGradientTable (blendLab : Color → Color → ℚ → Color) (numSegments : ℕ)
    (acts : List Action) : List GradientStop :=
  let segs := backfillSegments numSegments (buildSegments numSegments acts)
  (List.range numSegments).map (fun i =>
    let s := segs.getD i Segment.zero
    { Pos := (i : ℚ) / ((numSegments : ℚ) - 1)
      YRange := s.yRange
      Col := if 0 < s.count then getSegmentColor blendLab ((s.intensity : ℚ) / (s.count : ℚ))
             else getSegmentColor blendLab 0 })

/-- `(GradientTable).GetInterpolatedColorFor`: scan adjacent stop pairs
for the first with `c1.Pos ≤ t ≤ c2.Pos` and blend (the source uses the
library's `BlendHcl`, here the parameter `blend`) then clamp; fall
through to the last stop's color.  (Go panics on an empty table; the
`[]` case is unreachable from the source.) -/
def GetInterpolatedColorFor (blend : Color → Color → ℚ → Color) :
    List GradientStop → ℚ → Color
  | [], _ => ⟨0, 0, 0⟩
  | [s], _ => s.Col
  | c1 :: c2 :: rest, t =>
    if c1.Pos ≤ t ∧ t ≤ c2.Pos then
      Clamped (blend c1.Col c2.Col ((t - c1.Pos) / (c2.Pos - c1.Pos)))
    else GetInterpolatedColorFor blend (c2 :: rest) t

/-- `(GradientTable).GetYRange`: same scan, but the matching pair yields
the lower stop's `YRange` unblended; fall through to the last stop's. -/
def GetYRange : List GradientStop → ℚ → ℚ × ℚ
  | [], _ => (0, 0)
  | [s], _ => s.YRange
  | c1 :: c2 :: rest, t =>
    if c1.Pos ≤ t ∧ t ≤ c2.Pos then c1.YRange
    else GetYRange (c2 :: rest) t

/-- The error outcomes of `Generate` that the source distinguishes
(file-I/O errors are an external concern). -/
inductive GenError
  | malformedInput
  | emptyActions
deriving Repr, DecidableEq

/-- A parsed funscript document: `actions = none` models JSON input whose
`actions` field is absent (Go: `funscript.Actions == nil`). -/
structure FunscriptDoc where
  actions : Option (List Action)

/-- `(*InteractiveHeatmapSpeedGenerator).Generate`, pure part: load and
validate (absent `actions` field → `malformedInput`), abort with
`emptyActions` when no valid action remains, otherwise compute metrics,
render (represented by the gradient table the heatmap is drawn from),
then the median.  The `Except` sequencing mirrors the early returns. -/
def Generate (blendLab : Color → Color → ℚ → Color) (dur : ℤ) (numSegments : ℕ)
    (doc : FunscriptDoc) : Except GenError (List GradientStop × ℤ) :=
  match doc.actions with
  | none => .error .malformedInput
  | some raw =>
    let acts := loadValidate dur raw
    if acts.length = 0 then .error .emptyActions
    else
      let acts2 := UpdateIntensityAndSpeed acts
      let gradient := getGradientTable blendLab numSegments acts2
      let median := CalculateMedianVal acts2
      .ok (gradient, median)

/-!
IEEE-754 special values.  The rational model above maps division by zero
to `0`; the Go code divides by `float64(t1-t2)`, which is `+0` when two
consecutive validated actions share a timestamp, producing `+Inf`/`NaN`.
`EFloat` refines the value domain with the special values, with exact
rational arithmetic on finite values (rounding is immaterial for the
concrete inputs considered) and the IEEE rules the relevant operations
follow in Go for the special values. -/

inductive EFloat
  | fin (q : ℚ)
  | inf
  | neginf
  | nan
deriving Repr, DecidableEq

namespace EFloat

/-- IEEE addition (special values). -/
def add : EFloat → EFloat → EFloat
  | fin a, fin b => fin (a + b)
  | nan, _ => nan
  | _, nan => nan
  | inf, neginf => nan
  | neginf, inf => nan
  | inf, _ => inf
  | _, inf => inf
  | neginf, _ => neginf
  | _, neginf => neginf

/-- IEEE multiplication (special values; `±Inf * 0 = NaN`). -/
def mul : EFloat → EFloat → EFloat
  | fin a, fin b => fin (a * b)
  | nan, _ => nan
  | _, nan => nan
  | inf, inf => inf
  | inf, neginf => neginf
  | neginf, inf => neginf
  | neginf, neginf => inf
  | fin a, inf => if 0 < a then inf else if a < 0 then neginf else nan
  | inf, fin a => if 0 < a then inf else if a < 0 then neginf else nan
  | fin a, neginf => if 0 < a then neginf else if a < 0 then inf else nan
  | neginf, fin a => if 0 < a then neginf else if a < 0 then inf else nan

/-- IEEE division; a finite numerator over `+0` gives `±Inf` by the
numerator's sign, and `0/0 = NaN`.  (Go's `float64` of an integer
difference is always `+0` when zero, so the negative-zero case does not
arise from this source.) -/
def div : EFloat → EFloat → EFloat
  | fin a, fin b =>
    if b = 0 then (if 0 < a then inf else if a < 0 then neginf else nan)
    else fin (a / b)
  | nan, _ => nan
  | _, nan => nan
  | inf, inf => nan
  | inf, neginf => nan
  | neginf, inf => nan
  | neginf, neginf => nan
  | fin _, inf => fin 0
  | fin _, neginf => fin 0
  | inf, fin b => if 0 ≤ b then inf else neginf
  | neginf, fin b => if 0 ≤ b then neginf else inf

/-- `math.Abs`. -/
def absF : EFloat → EFloat
  | fin a => fin |a|
  | inf => inf
  | neginf => inf
  | nan => nan

/-- `math.Max`: returns NaN when either argument is NaN. -/
def maxF : EFloat → EFloat → EFloat
  | nan, _ => nan
  | _, nan => nan
  | inf, _ => inf
  | _, inf => inf
  | neginf, x => x
  | x, neginf => x
  | fin a, fin b => fin (max a b)

/-- `math.Min`: returns NaN when either argument is NaN. -/
def minF : EFloat → EFloat → EFloat
  | nan, _ => nan
  | _, nan => nan
  | neginf, _ => neginf
  | _, neginf => neginf
  | inf, x => x
  | x, inf => x
  | fin a, fin b => fin (min a b)

/-- Go's `<` on `float64`: every comparison with NaN is false. -/
def ltF : EFloat → EFloat → Bool
  | nan, _ => false
  | _, nan => false
  | fin a, fin b => decide (a < b)
  | neginf, neginf => false
  | neginf, _ => true
  | _, neginf => false
  | inf, _ => false
  | fin _, inf => true

def isFinite : EFloat → Bool
  | fin _ => true
  | _ => false

end EFloat

/-- The slope expression of `UpdateIntensityAndSpeed` in float semantics:
`math.Min(math.Max(1/(2*float64(t1-t2)/1000), 0), 20)`. -/
def slopeF (dt : ℤ) : EFloat :=
  EFloat.minF
    (EFloat.maxF
      (EFloat.div (.fin 1) (EFloat.div (EFloat.mul (.fin 2) (.fin (dt : ℚ))) (.fin 1000)))
      (.fin 0))
    (.fin 20)

/-- The speed expression of `UpdateIntensityAndSpeed` in float semantics:
`math.Abs(float64(p1-p2)) / float64(t1-t2) * 1000`. -/
def speedF (dp dt : ℤ) : EFloat :=
  EFloat.mul (EFloat.div (EFloat.absF (.fin (dp : ℚ))) (.fin (dt : ℚ))) (.fin 1000)

/-- The per-action speeds in float semantics: index 0 keeps its zero
speed; every later action's speed comes from the adjacent differences. -/
def speedsF (l : List Action) : List EFloat :=
  match l with
  | [] => []
  | _ :: _ =>
    EFloat.fin 0 ::
      (l.zip l.tail).map (fun pc => speedF (pc.2.Pos - pc.1.Pos) (pc.2.At - pc.1.At))

/-- `CalculateMedian`'s median value before the final `int` conversion,
in float semantics (sorted with Go's `<`; for the even case,
`(a[m-1].Speed + a[m].Speed) / 2`). -/
def calculateMedianPreF (l : List EFloat) : EFloat :=
  let sorted := l.insertionSort (fun a b => EFloat.ltF b a = false)
  let m := sorted.length / 2
  if sorted.length % 2 ≠ 0 then sorted.getD m .nan
  else EFloat.div (EFloat.add (sorted.getD (m - 1) .nan) (sorted.getD m .nan)) (.fin 2)

/-! Shared helper lemmas. -/

/-- The default action used for out-of-range `getD` reads. -/
def dAct : Action := mkAction 0 0

theorem trunc_of_nonneg {q : ℚ} (h : 0 ≤ q) : trunc q = ⌊q⌋ := if_pos h

/-- Projecting speeds commutes with `getD` (the default's speed is 0). -/
theorem getD_map_speed (L : List Action) (i : ℕ) :
    (L.map Action.Speed).getD i 0 = (L.getD i dAct).Speed := by
  induction L generalizing i with
  | nil => rfl
  | cons a t ih =>
    cases i with
    | zero => rfl
    | succ j => simpa using ih j

/-! C10.  `LoadFunscriptData` keeps actions with equal timestamps (the
filter checks only the range of `at`, and the stable sort preserves their
order), and `UpdateIntensityAndSpeed`'s divisions are unguarded: with
`Δt = 0` the slope is still clamped to 20, but the speed is `+Inf` when
the positions differ and `NaN` when they also coincide, and the
non-finite speed flows into `CalculateMedian`'s median value. -/

/-- C10: for the validated input `[{at 0, pos 0}, {at 0, pos 100}]` (kept
verbatim by validation), the float-semantics slope at index 1 is clamped
to 20 while the speed is `+Inf`; with equal positions it is `NaN`; and
the float-semantics median of the speeds is `+Inf`, hence not finite. -/
theorem claim10_zero_dt_nonfinite_speed :
    loadValidate 5000 [mkAction 0 0, mkAction 0 100] = [mkAction 0 0, mkAction 0 100]
    ∧ slopeF 0 = .fin 20
    ∧ speedsF [mkAction 0 0, mkAction 0 100] = [.fin 0, .inf]
    ∧ EFloat.isFinite ((speedsF [mkAction 0 0, mkAction 0 100]).getD 1 .nan) = false
    ∧ speedsF [mkAction 0 50, mkAction 0 50] = [.fin 0, .nan]
    ∧ calculateMedianPreF (speedsF [mkAction 0 0, mkAction 0 100]) = .inf
    ∧ EFloat.isFinite (calculateMedianPreF (speedsF [mkAction 0 0, mkAction 0 100])) = false := by
  refine ⟨by decide, ?_, ?_, ?_, ?_, ?_, ?_⟩
  all_goals with_unfolding_all decide

/-! C5.  The spec says `CalculateMedian` sorts a *copy* of the action
sequence; the source calls `sort.Slice(funscript.Actions, ...)`, which
sorts the receiver's `Actions` in place.  The claim that `Actions` is
unchanged after the call is false. -/

/-- C5 counterexample: a script whose two actions are ordered by `at`
with speeds `5, 1`; after `CalculateMedian` the `Actions` sequence is
sorted by speed, hence reordered and different from the input. -/
theorem claim5_counterexample :
    (CalculateMedian ⟨[⟨0, 0, 0, 0, 5⟩, ⟨1000, 0, 0, 0, 1⟩]⟩).2.Actions
      ≠ [⟨0, 0, 0, 0, 5⟩, ⟨1000, 0, 0, 0, 1⟩] := by
  decide

/-- C5 amended: `CalculateMedian` sorts the `Actions` in place by speed:
after the call the script's `Actions` are a permutation of the input
actions, sorted non-decreasingly by `Speed` (so in general no longer
sorted by `at`). -/
theorem claim5_sorts_in_place (s : Script) :
    ((CalculateMedian s).2.Actions).Perm s.Actions
    ∧ List.Sorted speedLE (CalculateMedian s).2.Actions := by
  exact ⟨List.perm_insertionSort _ _, List.sorted_insertionSort _ _⟩

/-! C4.  The median value. -/

/-- Modelled from the claim's words: the median of a list of speeds —
sort the speeds ascending; for an odd count, the middle element truncated
to an integer; for an even count, the truncated average of the two middle
elements. -/
def medianOfSpeeds (speeds : List ℚ) : ℤ :=
  let sorted := speeds.insertionSort (fun a b : ℚ => a ≤ b)
  let m := sorted.length / 2
  if sorted.length % 2 ≠ 0 then trunc (sorted.getD m 0)
  else trunc ((sorted.getD (m - 1) 0 + sorted.getD m 0) / 2)

/-- C4: `CalculateMedian` returns the median of all per-action speeds
(index 0 included): odd count → the middle speed of the ascending
ordering, truncated; even count → the truncated average of the two middle
speeds; in particular speeds `[1,3,5]` give `3` and `[1,2,3,4]` give `2`. -/
theorem claim4_median_of_speeds :
    (∀ l : List Action, CalculateMedianVal l = medianOfSpeeds (l.map Action.Speed))
    ∧ CalculateMedianVal [⟨0, 0, 0, 0, 1⟩, ⟨0, 0, 0, 0, 3⟩, ⟨0, 0, 0, 0, 5⟩] = 3
    ∧ CalculateMedianVal [⟨0, 0, 0, 0, 1⟩, ⟨0, 0, 0, 0, 2⟩, ⟨0, 0, 0, 0, 3⟩, ⟨0, 0, 0, 0, 4⟩] = 2 := by
  refine ⟨fun l => ?_,
    by norm_num [CalculateMedianVal, List.insertionSort, List.orderedInsert, speedLE, trunc,
      List.getD_cons_zero, List.getD_cons_succ],
    by norm_num [CalculateMedianVal, List.insertionSort, List.orderedInsert, speedLE, trunc,
      List.getD_cons_zero, List.getD_cons_succ]⟩
  have hmap : List.map Action.Speed (l.insertionSort speedLE)
      = (l.map Action.Speed).insertionSort (fun a b : ℚ => a ≤ b) :=
    List.map_insertionSort speedLE (fun a b : ℚ => a ≤ b) Action.Speed l
      (fun _ _ _ _ => Iff.rfl)
  simp only [CalculateMedianVal, medianOfSpeeds, ← hmap, List.length_map, getD_map_speed, dAct]

/-! C2.  Validation: sortedness, exactness, tie stability. -/

/-- C2: after validation the sequence is sorted non-decreasingly by `at`;
it consists of exactly the input actions with `0 ≤ at < duration` (a
permutation of the input's valid actions); ties on `at` keep their input
order (for each `t`, the validated actions with `at = t` are the valid
input actions with `at = t`, in input order); and `at` values
`[-5, 10, 3000, 7000]` with duration 5000 yield exactly `[10, 3000]`. -/
theorem claim2_validate :
    (∀ (dur : ℤ) (l : List Action), List.Sorted atLE (loadValidate dur l))
    ∧ (∀ (dur : ℤ) (l : List Action), (loadValidate dur l).Perm (l.filter (isValid dur)))
    ∧ (∀ (dur : ℤ) (l : List Action) (t : ℤ),
        (loadValidate dur l).filter (fun a => decide (a.At = t))
          = l.filter (fun a => decide (a.At = t) && isValid dur a))
    ∧ loadValidate 5000 [mkAction (-5) 1, mkAction 10 2, mkAction 3000 3, mkAction 7000 4]
        = [mkAction 10 2, mkAction 3000 3] := by
  refine ⟨fun dur l => ?_, fun dur l => ?_, fun dur l t => ?_, by decide⟩
  · exact List.Pairwise.filter (isValid dur) (List.sorted_insertionSort atLE l)
  · exact List.Perm.filter (isValid dur) (List.perm_insertionSort atLE l)
  · rw [loadValidate, List.filter_filter]
    set p : Action → Bool := fun a => decide (a.At = t) && isValid dur a with hp
    have hGall : ∀ a ∈ l.filter p, p a = true := fun a ha => (List.mem_filter.mp ha).2
    have hat : ∀ a ∈ l.filter p, a.At = t := by
      intro a ha
      have := hGall a ha
      rw [hp] at this
      simpa using (Bool.and_elim_left this)
    have hpair : (l.filter p).Pairwise atLE :=
      List.pairwise_of_forall_mem_list
        (fun a ha b hb => by rw [atLE, hat a ha, hat b hb])
    have hstab : (l.filter p).Sublist (l.insertionSort atLE) :=
      List.sublist_insertionSort hpair (List.filter_sublist l)
    have hsub2 : (l.filter p).Sublist ((l.insertionSort atLE).filter p) := by
      have := List.Sublist.filter p hstab
      rwa [List.filter_eq_self.mpr hGall] at this
    have hperm : ((l.insertionSort atLE).filter p).Perm (l.filter p) :=
      List.Perm.filter p (List.perm_insertionSort atLE l)
    exact (hsub2.eq_of_length hperm.length_eq.symm).symm

/-! C3.  The derived metric fields. -/

theorem updateAction_At (p c : Action) : (updateAction p c).At = c.At := rfl

theorem updateAction_Pos (p c : Action) : (updateAction p c).Pos = c.Pos := rfl

/-- `updateAction` reads only the predecessor's `At` and `Pos`. -/
theorem updateAction_congr {p q : Action} (c : Action) (hA : p.At = q.At)
    (hP : p.Pos = q.Pos) : updateAction p c = updateAction q c := by
  simp [updateAction, hA, hP]

theorem updateGo_congr {p q : Action} (hA : p.At = q.At) (hP : p.Pos = q.Pos) :
    ∀ l : List Action, updateGo p l = updateGo q l := by
  intro l
  cases l with
  | nil => rfl
  | cons c rest => simp only [updateGo, updateAction_congr c hA hP]

theorem updateGo_length (prev : Action) (l : List Action) :
    (updateGo prev l).length = l.length := by
  induction l generalizing prev with
  | nil => rfl
  | cons c rest ih => simp [updateGo, ih]

theorem updateGo_at_pos (prev : Action) (l : List Action) (i : ℕ) :
    ((updateGo prev l).getD i dAct).At = (l.getD i dAct).At
    ∧ ((updateGo prev l).getD i dAct).Pos = (l.getD i dAct).Pos := by
  induction l generalizing prev i with
  | nil => exact ⟨rfl, rfl⟩
  | cons c rest ih =>
    cases i with
    | zero => exact ⟨rfl, rfl⟩
    | succ j => simpa only [updateGo, List.getD_cons_succ] using ih (updateAction prev c) j

/-- Element `j` of the metric loop: the predecessor is the list's previous
element (the in-place update never changes `At`/`Pos`). -/
theorem updateGo_getD_eq (rest : List Action) (prev : Action) (j : ℕ) (hj : j < rest.length) :
    (updateGo prev rest).getD j dAct
      = updateAction (if j = 0 then prev else rest.getD (j - 1) dAct) (rest.getD j dAct) := by
  induction rest generalizing prev j with
  | nil => simp at hj
  | cons c rs ih =>
    cases j with
    | zero => simp [updateGo]
    | succ k =>
      have hk : k < rs.length := by simpa using hj
      have hcongr : updateGo (updateAction prev c) rs = updateGo c rs :=
        updateGo_congr (updateAction_At prev c) (updateAction_Pos prev c) rs
      simp only [updateGo, List.getD_cons_succ, hcongr, ih c k hk]
      cases k with
      | zero => simp
      | succ m => simp

theorem slope_nonneg (x : ℚ) : 0 ≤ min (max x 0) 20 :=
  le_min (le_max_right x 0) (by norm_num)

/-- C3: `UpdateIntensityAndSpeed` preserves length and every `At`/`Pos`;
index 0 (whose derived fields are zero on validated input) keeps zero
slope/intensity/speed; and each index `i > 0` gets
`slope = clamp(1/(2Δt/1000), 0, 20)`, `intensity = ⌊slope·Δp⌋`, and
`speed = Δp/Δt·1000` from the adjacent differences. -/
theorem claim3_update_metrics (l : List Action)
    (h0 : (l.getD 0 dAct).Slope = 0 ∧ (l.getD 0 dAct).Intensity = 0
      ∧ (l.getD 0 dAct).Speed = 0) :
    (UpdateIntensityAndSpeed l).length = l.length
    ∧ (∀ i : ℕ, ((UpdateIntensityAndSpeed l).getD i dAct).At = (l.getD i dAct).At
        ∧ ((UpdateIntensityAndSpeed l).getD i dAct).Pos = (l.getD i dAct).Pos)
    ∧ ((UpdateIntensityAndSpeed l).getD 0 dAct).Slope = 0
    ∧ ((UpdateIntensityAndSpeed l).getD 0 dAct).Intensity = 0
    ∧ ((UpdateIntensityAndSpeed l).getD 0 dAct).Speed = 0
    ∧ (∀ i : ℕ, 0 < i → i < l.length →
        ((UpdateIntensityAndSpeed l).getD i dAct).Slope
          = min (max (1 / (2 * (((l.getD i dAct).At - (l.getD (i - 1) dAct).At : ℤ) : ℚ) / 1000)) 0) 20
        ∧ ((UpdateIntensityAndSpeed l).getD i dAct).Intensity
          = ⌊((UpdateIntensityAndSpeed l).getD i dAct).Slope
              * |(((l.getD i dAct).Pos - (l.getD (i - 1) dAct).Pos : ℤ) : ℚ)|⌋
        ∧ ((UpdateIntensityAndSpeed l).getD i dAct).Speed
          = |(((l.getD i dAct).Pos - (l.getD (i - 1) dAct).Pos : ℤ) : ℚ)|
              / (((l.getD i dAct).At - (l.getD (i - 1) dAct).At : ℤ) : ℚ) * 1000) := by
  cases l with
  | nil =>
    refine ⟨rfl, fun i => ⟨rfl, rfl⟩, rfl, rfl, rfl, fun i h1 h2 => absurd h2 (by simp)⟩
  | cons a rest =>
    obtain ⟨hS, hI, hV⟩ := h0
    refine ⟨by simp [UpdateIntensityAndSpeed, updateGo_length], fun i => ?_, ?_, ?_, ?_, ?_⟩
    · cases i with
      | zero => exact ⟨rfl, rfl⟩
      | succ j =>
        simpa only [UpdateIntensityAndSpeed, List.getD_cons_succ] using
          updateGo_at_pos a rest j
    · simpa only [UpdateIntensityAndSpeed, List.getD_cons_zero] using hS
    · simpa only [UpdateIntensityAndSpeed, List.getD_cons_zero] using hI
    · simpa only [UpdateIntensityAndSpeed, List.getD_cons_zero] using hV
    · intro i h1 h2
      obtain ⟨j, rfl⟩ : ∃ j, i = j + 1 := ⟨i - 1, (Nat.succ_pred_eq_of_pos h1).symm⟩
      have hj : j < rest.length := by simpa using h2
      have hgo := updateGo_getD_eq rest a j hj
      have hprev : (if j = 0 then a else rest.getD (j - 1) dAct)
          = (a :: rest).getD j dAct := by
        cases j with
        | zero => simp
        | succ m => simp
      rw [hprev] at hgo
      have hmain : (UpdateIntensityAndSpeed (a :: rest)).getD (j + 1) dAct
          = updateAction ((a :: rest).getD j dAct) (rest.getD j dAct) := by
        simpa only [UpdateIntensityAndSpeed, List.getD_cons_succ] using hgo
      refine ⟨?_, ?_, ?_⟩
      · rw [hmain]
        simp only [updateAction, List.getD_cons_succ, Nat.add_sub_cancel]
      · rw [hmain]
        simp only [updateAction, List.getD_cons_succ, Nat.add_sub_cancel]
        rw [trunc_of_nonneg (mul_nonneg (slope_nonneg _) (abs_nonneg _))]
      · rw [hmain]
        simp only [updateAction, List.getD_cons_succ, Nat.add_sub_cancel]

/-- C3 witness: on `[{at 0, pos 0}, {at 1000, pos 100}]` the theorem
yields slope `1/2` and speed `100` at index 1. -/
theorem claim3_witness :
    ((UpdateIntensityAndSpeed [mkAction 0 0, mkAction 1000 100]).getD 1 dAct).Slope = 1 / 2
    ∧ ((UpdateIntensityAndSpeed [mkAction 0 0, mkAction 1000 100]).getD 1 dAct).Speed = 100 := by
  have h := claim3_update_metrics [mkAction 0 0, mkAction 1000 100] (by decide)
  have h1 := h.2.2.2.2.2 1 (by decide) (by decide)
  constructor
  · rw [h1.1]
    norm_num [mkAction, dAct]
  · rw [h1.2.2]
    norm_num [mkAction, dAct]

/-! C6.  The color mapper. -/

/-- C6: given only the endpoint law of the external perceptual blend
(`blend c d 1 = d`, which the Lab blend satisfies in exact arithmetic):
intensities `≤ 0.001` map to the background exactly; `60` maps to the
green anchor; intensities `≥ 540` map to the black endpoint (fraction
clamped to 1); the `(180,240]` branch is the linear-RGB red→purple blend;
every other blending branch is the Lab blend with its fraction. -/
theorem claim6_segment_color (blendLab : Color → Color → ℚ → Color)
    (hb1 : ∀ c d : Color, blendLab c d 1 = d) :
    (∀ x : ℚ, x ≤ 0.001 → getSegmentColor blendLab x = colorBackground)
    ∧ getSegmentColor blendLab 60 = colorGreen
    ∧ (∀ x : ℚ, 540 ≤ x → getSegmentColor blendLab x = colorBlack)
    ∧ (∀ x : ℚ, 180 < x → x ≤ 240 →
        getSegmentColor blendLab x = blendRgb colorRed colorPurple ((x - 3 * 60) / 60))
    ∧ (∀ x : ℚ, 0.001 < x → x ≤ 60 →
        getSegmentColor blendLab x = blendLab colorBlue colorGreen ((x - 0 * 60) / 60))
    ∧ (∀ x : ℚ, 60 < x → x ≤ 120 →
        getSegmentColor blendLab x = blendLab colorGreen colorYellow ((x - 1 * 60) / 60))
    ∧ (∀ x : ℚ, 120 < x → x ≤ 180 →
        getSegmentColor blendLab x = blendLab colorYellow colorRed ((x - 2 * 60) / 60))
    ∧ (∀ x : ℚ, 240 < x →
        getSegmentColor blendLab x
          = blendLab colorPurple colorBlack (min ((x - 4 * 60) / (5 * 60)) 1)) := by
  have h001 : (0.001 : ℚ) = 1 / 1000 := by norm_num
  refine ⟨fun x hx => ?_, ?_, fun x hx => ?_, fun x hx1 hx2 => ?_, fun x hx1 hx2 => ?_,
    fun x hx1 hx2 => ?_, fun x hx1 hx2 => ?_, fun x hx => ?_⟩
  · simp only [getSegmentColor]
    rw [if_pos hx]
  · simp only [getSegmentColor]
    rw [if_neg (by norm_num), if_pos (by norm_num)]
    have : ((60 : ℚ) - 0 * 60) / 60 = 1 := by norm_num
    rw [this, hb1]
  · have h1 : ¬ x ≤ 0.001 := by rw [h001]; linarith
    simp only [getSegmentColor]
    rw [if_neg h1, if_neg (by linarith), if_neg (by linarith), if_neg (by linarith),
      if_neg (by linarith)]
    have hmin : min ((x - 4 * 60) / (5 * 60)) 1 = 1 :=
      min_eq_right (by rw [le_div_iff₀ (by norm_num : (0:ℚ) < 5 * 60)]; linarith)
    rw [hmin, hb1]
  · have h1 : ¬ x ≤ 0.001 := by rw [h001]; linarith
    simp only [getSegmentColor]
    rw [if_neg h1, if_neg (by linarith), if_neg (by linarith), if_neg (by linarith),
      if_pos (by linarith)]
  · simp only [getSegmentColor]
    rw [if_neg (by rw [h001]; linarith), if_pos (by linarith)]
  · have h1 : ¬ x ≤ 0.001 := by rw [h001]; linarith
    simp only [getSegmentColor]
    rw [if_neg h1, if_neg (by linarith), if_pos (by linarith)]
  · have h1 : ¬ x ≤ 0.001 := by rw [h001]; linarith
    simp only [getSegmentColor]
    rw [if_neg h1, if_neg (by linarith), if_neg (by linarith), if_pos (by linarith)]
  · have h1 : ¬ x ≤ 0.001 := by rw [h001]; linarith
    simp only [getSegmentColor]
    rw [if_neg h1, if_neg (by linarith), if_neg (by linarith), if_neg (by linarith),
      if_neg (by linarith)]

/-- C6 witness: instantiating the perceptual blend with the linear blend
(which satisfies the endpoint law) at intensities 0, 60, 200 and 600. -/
theorem claim6_witness :
    getSegmentColor blendRgb 60 = colorGreen
    ∧ getSegmentColor blendRgb 600 = colorBlack
    ∧ getSegmentColor blendRgb 0 = colorBackground
    ∧ getSegmentColor blendRgb 200 = blendRgb colorRed colorPurple ((200 - 3 * 60) / 60) := by
  have hb1 : ∀ c d : Color, blendRgb c d 1 = d := by
    intro c d
    cases c
    cases d
    simp [blendRgb]
  have h := claim6_segment_color blendRgb hb1
  exact ⟨h.2.1, h.2.2.1 600 (by norm_num), h.1 0 (by norm_num),
    h.2.2.2.1 200 (by norm_num) (by norm_num)⟩

/-! C7.  The gradient table's shape. -/

theorem getD_range_map {β : Type} (f : ℕ → β) (n i : ℕ) (d : β) (hi : i < n) :
    ((List.range n).map f).getD i d = f i := by
  rw [List.getD_eq_getElem?_getD, List.getElem?_map, List.getElem?_range hi]
  rfl

/-- C7: for a non-empty action list and `numSegments ≥ 2`, the gradient
table has exactly `numSegments` stops; stop `i` has position
`i/(numSegments-1)` (hence strictly increasing from 0 to 1), the `i`-th
segment's `yRange` verbatim, and the mapped mean-intensity color
(`count > 0`) or the background color (`count = 0`). -/
theorem claim7_gradient_table (blendLab : Color → Color → ℚ → Color)
    (acts : List Action) (n : ℕ) (_hne : acts ≠ []) (hn : 2 ≤ n) :
    (getGradientTable blendLab n acts).length = n
    ∧ (∀ i : ℕ, i < n →
        ((getGradientTable blendLab n acts).getD i defaultStop).Pos = (i : ℚ) / ((n : ℚ) - 1)
        ∧ ((getGradientTable blendLab n acts).getD i defaultStop).YRange
            = ((backfillSegments n (buildSegments n acts)).getD i Segment.zero).yRange
        ∧ ((getGradientTable blendLab n acts).getD i defaultStop).Col
            = if 0 < ((backfillSegments n (buildSegments n acts)).getD i Segment.zero).count
              then getSegmentColor blendLab
                ((((backfillSegments n (buildSegments n acts)).getD i Segment.zero).intensity : ℚ)
                  / (((backfillSegments n (buildSegments n acts)).getD i Segment.zero).count : ℚ))
              else getSegmentColor blendLab 0)
    ∧ (∀ i j : ℕ, i < j → j < n →
        ((getGradientTable blendLab n acts).getD i defaultStop).Pos
          < ((getGradientTable blendLab n acts).getD j defaultStop).Pos)
    ∧ ((getGradientTable blendLab n acts).getD 0 defaultStop).Pos = 0
    ∧ ((getGradientTable blendLab n acts).getD (n - 1) defaultStop).Pos = 1 := by
  have hn1 : (0 : ℚ) < (n : ℚ) - 1 := by
    have : (2 : ℚ) ≤ (n : ℚ) := by exact_mod_cast hn
    linarith
  have hget : ∀ i : ℕ, i < n → (getGradientTable blendLab n acts).getD i defaultStop
      = { Pos := (i : ℚ) / ((n : ℚ) - 1)
          YRange := ((backfillSegments n (buildSegments n acts)).getD i Segment.zero).yRange
          Col := if 0 < ((backfillSegments n (buildSegments n acts)).getD i Segment.zero).count
                 then getSegmentColor blendLab
                   ((((backfillSegments n (buildSegments n acts)).getD i Segment.zero).intensity : ℚ)
                     / (((backfillSegments n (buildSegments n acts)).getD i Segment.zero).count : ℚ))
                 else getSegmentColor blendLab 0 } := by
    intro i hi
    simp only [getGradientTable]
    exact getD_range_map _ n i _ hi
  refine ⟨by simp [getGradientTable], fun i hi => ?_, fun i j hij hj => ?_, ?_, ?_⟩
  · rw [hget i hi]
    exact ⟨rfl, rfl, rfl⟩
  · rw [hget i (lt_trans hij hj), hget j hj]
    exact div_lt_div_of_pos_right (by exact_mod_cast hij) hn1
  · rw [hget 0 (by omega)]
    simp
  · rw [hget (n - 1) (by omega)]
    show ((n - 1 : ℕ) : ℚ) / ((n : ℚ) - 1) = 1
    rw [Nat.cast_sub (by omega), Nat.cast_one]
    exact div_self (ne_of_gt hn1)

/-- C7 witness: two segments over a single action. -/
theorem claim7_witness :
    (getGradientTable blendRgb 2 [mkAction 0 0]).length = 2
    ∧ ((getGradientTable blendRgb 2 [mkAction 0 0]).getD 0 defaultStop).Pos = 0
    ∧ ((getGradientTable blendRgb 2 [mkAction 0 0]).getD (2 - 1) defaultStop).Pos = 1 := by
  have h := claim7_gradient_table blendRgb [mkAction 0 0] 2 (by decide) (by decide)
  exact ⟨h.1, h.2.2.2.1, h.2.2.2.2⟩

/-! C1.  The backfill pass is unconditional in effect. -/

theorem trunc_div_eq_zero (i n : ℕ) (hi : i < n) : trunc ((i : ℚ) / (n : ℚ)) = 0 := by
  have hn : (0 : ℚ) < (n : ℚ) := by
    have h : 0 < n := by omega
    exact_mod_cast h
  have h0 : (0 : ℚ) ≤ (i : ℚ) / (n : ℚ) := div_nonneg (by positivity) (le_of_lt hn)
  have h1 : (i : ℚ) / (n : ℚ) < 1 := by
    rw [div_lt_one hn]
    exact_mod_cast hi
  rw [trunc, if_pos h0]
  exact Int.floor_eq_zero_iff.mpr ⟨h0, h1⟩

theorem foldl_buildStep_length (m : ℤ) (n : ℕ) :
    ∀ (acts : List Action) (st : List ℤ × List Segment),
      ((acts.foldl (buildStep m n) st).2).length = st.2.length := by
  intro acts
  induction acts with
  | nil => intro st; rfl
  | cons a rest ih =>
    intro st
    rw [List.foldl_cons, ih]
    simp [buildStep]

theorem buildSegments_length (n : ℕ) (acts : List Action) :
    (buildSegments n acts).length = n := by
  rw [buildSegments, foldl_buildStep_length]
  exact List.length_replicate n Segment.zero

theorem foldl_buildStep_at_nonneg (m : ℤ) (n : ℕ) :
    ∀ (acts : List Action) (st : List ℤ × List Segment),
      (∀ a ∈ acts, 0 ≤ a.At) → (∀ s ∈ st.2, 0 ≤ s.lastActionAt) →
      ∀ s ∈ (acts.foldl (buildStep m n) st).2, 0 ≤ s.lastActionAt := by
  intro acts
  induction acts with
  | nil => intro st _ hst; simpa using hst
  | cons a rest ih =>
    intro st hacts hst
    rw [List.foldl_cons]
    refine ih (buildStep m n st a) (fun b hb => hacts b (List.mem_cons_of_mem a hb)) ?_
    intro s hs
    simp only [buildStep] at hs
    rcases List.mem_or_eq_of_mem_set hs with h | h
    · exact hst s h
    · rw [h]
      exact hacts a (List.mem_cons_self a rest)

theorem buildSegments_at_nonneg (n : ℕ) (acts : List Action) (h : ∀ a ∈ acts, 0 ≤ a.At) :
    ∀ s ∈ buildSegments n acts, 0 ≤ s.lastActionAt := by
  intro s hs
  rw [buildSegments] at hs
  refine foldl_buildStep_at_nonneg _ n acts _ h ?_ s hs
  intro b hb
  rw [List.eq_of_mem_replicate hb]
  exact le_refl 0

/-- The literal backfill loop coincides with the unconditional one as
long as the running index stays below `numSegments` and every tracked
`at` is non-negative: the gap `trunc(i/numSegments) - lastActionAt` is
then `0 - lastActionAt ≤ 0 < 500`. -/
theorem backfillGo_eq_always (n : ℕ) :
    ∀ (segs : List Segment) (i : ℕ) (last : Segment),
      0 ≤ last.lastActionAt → (∀ s ∈ segs, 0 ≤ s.lastActionAt) → i + segs.length ≤ n →
      backfillGo n i last segs = backfillAlwaysGo last segs := by
  intro segs
  induction segs with
  | nil => intro i last _ _ _; rfl
  | cons s rest ih =>
    intro i last hlast hmem hlen
    have hi : i < n := by
      simp only [List.length_cons] at hlen
      omega
    have hcond : trunc ((i : ℚ) / (n : ℚ)) - last.lastActionAt < backfillThreshold := by
      rw [trunc_div_eq_zero i n hi, backfillThreshold]
      linarith
    have htail : ∀ b ∈ rest, 0 ≤ b.lastActionAt :=
      fun b hb => hmem b (List.mem_cons_of_mem s hb)
    have hlen2 : i + 1 + rest.length ≤ n := by
      simp only [List.length_cons] at hlen
      omega
    simp only [backfillGo, backfillAlwaysGo]
    by_cases h0 : s.count = 0
    · rw [if_pos h0, if_pos h0, if_pos hcond, ih (i + 1) last hlast htail hlen2]
    · rw [if_neg h0, if_neg h0,
        ih (i + 1) s (hmem s (List.mem_cons_self s rest)) htail hlen2]

/-- C1: for validated actions (all `at ≥ 0`), the backfill pass equals
its unconditional variant: the gap condition holds at every empty bin
(its timestamp `trunc(i/numSegments)` is 0 and `lastActionAt ≥ 0`), so
every empty bin inherits the tracked last segment's `count`,
`intensitySum` and `yRange` exactly, with `lastSegment` starting at
segment 0 and updated at each non-empty bin. -/
theorem claim1_backfill_unconditional (acts : List Action) (n : ℕ)
    (h : ∀ a ∈ acts, 0 ≤ a.At) :
    backfillSegments n (buildSegments n acts) = backfillAlways (buildSegments n acts) := by
  rw [backfillSegments, backfillAlways]
  refine backfillGo_eq_always n (buildSegments n acts) 0 _ ?_
    (buildSegments_at_nonneg n acts h) ?_
  · cases hB : buildSegments n acts with
    | nil => exact le_refl 0
    | cons s rest =>
      have hs : s ∈ buildSegments n acts := by
        rw [hB]
        exact List.mem_cons_self s rest
      simpa using buildSegments_at_nonneg n acts h s hs
  · rw [Nat.zero_add, buildSegments_length]

/-- C1 witness: one action, two bins; bin 1 is empty and inherits bin 0,
exactly as the unconditional pass does. -/
theorem claim1_witness :
    backfillSegments 2 (buildSegments 2 [mkAction 0 0])
      = backfillAlways (buildSegments 2 [mkAction 0 0]) :=
  claim1_backfill_unconditional [mkAction 0 0] 2 (by decide)

/-! C9.  `Generate`'s error handling. -/

/-- C9: an absent `actions` field fails with the malformed-input error; a
present-but-empty `actions` array, or one fully trimmed by validation,
fails with the distinct no-valid-actions error before any rendering or
median computation (`Generate` returns the error instead of an `ok`
payload); and with valid actions remaining `Generate` succeeds. -/
theorem claim9_generate_errors (blendLab : Color → Color → ℚ → Color) (dur : ℤ) (n : ℕ) :
    Generate blendLab dur n ⟨none⟩ = .error .malformedInput
    ∧ (∀ raw, loadValidate dur raw = [] →
        Generate blendLab dur n ⟨some raw⟩ = .error .emptyActions)
    ∧ (∀ raw, loadValidate dur raw ≠ [] →
        Generate blendLab dur n ⟨some raw⟩
          = .ok (getGradientTable blendLab n (UpdateIntensityAndSpeed (loadValidate dur raw)),
              CalculateMedianVal (UpdateIntensityAndSpeed (loadValidate dur raw))))
    ∧ Generate blendLab dur n ⟨some []⟩ = .error .emptyActions
    ∧ Generate blendLab dur n ⟨some [mkAction (-5) 0]⟩ = .error .emptyActions
    ∧ GenError.malformedInput ≠ GenError.emptyActions := by
  have hgen : ∀ raw, Generate blendLab dur n ⟨some raw⟩
      = if (loadValidate dur raw).length = 0 then .error .emptyActions
        else .ok (getGradientTable blendLab n (UpdateIntensityAndSpeed (loadValidate dur raw)),
          CalculateMedianVal (UpdateIntensityAndSpeed (loadValidate dur raw))) := by
    intro raw
    rfl
  refine ⟨rfl, fun raw hraw => ?_, fun raw hraw => ?_, ?_, ?_, by decide⟩
  · rw [hgen, if_pos (by rw [hraw]; rfl)]
  · rw [hgen, if_neg (by simpa [List.length_eq_zero] using hraw)]
  · rw [hgen, if_pos (show (loadValidate dur []).length = 0 from rfl)]
  · rw [hgen, if_pos (show (loadValidate dur [mkAction (-5) 0]).length = 0 from rfl)]

/-- C9 witness: concrete failing documents at duration 5000 with 4 bins.  -/
theorem claim9_witness :
    Generate blendRgb 5000 4 ⟨none⟩ = .error .malformedInput
    ∧ Generate blendRgb 5000 4 ⟨some [mkAction (-5) 0]⟩ = .error .emptyActions := by
  have h := claim9_generate_errors blendRgb 5000 4
  exact ⟨h.1, h.2.1 [mkAction (-5) 0] (by decide)⟩

/-! C8.  Gradient queries. -/

theorem clamp01_of_mem {x : ℚ} (h0 : 0 ≤ x) (h1 : x ≤ 1) : clamp01 x = x := by
  rw [clamp01, max_eq_left h0, min_eq_left h1]

theorem Clamped_of_inGamut {c : Color} (h : InGamut c) : Clamped c = c := by
  obtain ⟨hR0, hR1, hG0, hG1, hB0, hB1⟩ := h
  cases c
  simp only [Clamped]
  rw [clamp01_of_mem hR0 hR1, clamp01_of_mem hG0 hG1, clamp01_of_mem hB0 hB1]

theorem getLastD_mem {α : Type} (l : List α) (d : α) (h : l ≠ []) :
    (l.getLast?).getD d ∈ l := by
  rw [List.getLast?_eq_getLast l h]
  simp only [Option.getD_some]
  exact List.getLast_mem h

/-- Querying exactly at stop `i`'s position returns that stop's color:
the scan stops at the first enclosing pair, where the blend fraction is 0
(stop 0) or 1 (any later stop). -/
theorem interp_at_stop (blend : Color → Color → ℚ → Color)
    (hb0 : ∀ c d : Color, blend c d 0 = c) (hb1 : ∀ c d : Color, blend c d 1 = d) :
    ∀ (gt : List GradientStop), List.Pairwise (fun a b => a.Pos < b.Pos) gt →
      (∀ s ∈ gt, InGamut s.Col) → ∀ i, i < gt.length →
      GetInterpolatedColorFor blend gt ((gt.getD i defaultStop).Pos)
        = (gt.getD i defaultStop).Col := by
  intro gt
  induction gt with
  | nil => intro _ _ i hi; simp at hi
  | cons c1 tl ih =>
    intro hpair hgam i hi
    cases tl with
    | nil =>
      have hi0 : i = 0 := by
        simp only [List.length_cons, List.length_nil] at hi
        omega
      subst hi0
      rfl
    | cons c2 rest =>
      have h12 : c1.Pos < c2.Pos :=
        (List.pairwise_cons.mp hpair).1 c2 (List.mem_cons_self c2 rest)
      have hpair2 : List.Pairwise (fun a b : GradientStop => a.Pos < b.Pos) (c2 :: rest) :=
        (List.pairwise_cons.mp hpair).2
      have hgam2 : ∀ s ∈ c2 :: rest, InGamut s.Col :=
        fun s hs => hgam s (List.mem_cons_of_mem c1 hs)
      cases i with
      | zero =>
        show GetInterpolatedColorFor blend (c1 :: c2 :: rest) c1.Pos = c1.Col
        rw [GetInterpolatedColorFor, if_pos ⟨le_refl c1.Pos, le_of_lt h12⟩, sub_self,
          zero_div, hb0]
        exact Clamped_of_inGamut (hgam c1 (List.mem_cons_self _ _))
      | succ j =>
        cases j with
        | zero =>
          simp only [List.getD_cons_succ, List.getD_cons_zero]
          rw [GetInterpolatedColorFor, if_pos ⟨le_of_lt h12, le_refl c2.Pos⟩,
            div_self (sub_ne_zero.mpr (ne_of_gt h12)), hb1]
          exact Clamped_of_inGamut (hgam c2 (List.mem_cons_of_mem c1 (List.mem_cons_self _ _)))
        | succ k =>
          have hk : k < rest.length := by
            simp only [List.length_cons] at hi
            omega
          have hmemk : rest.getD k defaultStop ∈ rest := by
            rw [List.getD_eq_getElem rest defaultStop hk]
            exact List.getElem_mem hk
          have hgt2 : c2.Pos < (rest.getD k defaultStop).Pos :=
            (List.pairwise_cons.mp hpair2).1 _ hmemk
          simp only [List.getD_cons_succ]
          rw [GetInterpolatedColorFor, if_neg (fun hcond => absurd hcond.2 (not_le.mpr hgt2))]
          have hrec := ih hpair2 hgam2 (k + 1) (by simpa using hk)
          simpa only [List.getD_cons_succ] using hrec

/-- Any query at or past the last stop's position returns the last
stop's color (exactly at it, the enclosing pair blends at fraction 1). -/
theorem interp_last (blend : Color → Color → ℚ → Color)
    (hb1 : ∀ c d : Color, blend c d 1 = d) :
    ∀ (gt : List GradientStop), List.Pairwise (fun a b => a.Pos < b.Pos) gt →
      (∀ s ∈ gt, InGamut s.Col) → ∀ t : ℚ, gt ≠ [] →
      ((gt.getLast?).getD defaultStop).Pos ≤ t →
      GetInterpolatedColorFor blend gt t = ((gt.getLast?).getD defaultStop).Col := by
  intro gt
  induction gt with
  | nil => intro _ _ t h _; exact absurd rfl h
  | cons c1 tl ih =>
    intro hpair hgam t _ hlast
    cases tl with
    | nil =>
      simp only [List.getLast?_singleton, Option.getD_some]
      rfl
    | cons c2 rest =>
      have h12 : c1.Pos < c2.Pos :=
        (List.pairwise_cons.mp hpair).1 c2 (List.mem_cons_self c2 rest)
      have hpair2 : List.Pairwise (fun a b : GradientStop => a.Pos < b.Pos) (c2 :: rest) :=
        (List.pairwise_cons.mp hpair).2
      have hgam2 : ∀ s ∈ c2 :: rest, InGamut s.Col :=
        fun s hs => hgam s (List.mem_cons_of_mem c1 hs)
      rw [List.getLast?_cons_cons] at hlast ⊢
      by_cases hcond : c1.Pos ≤ t ∧ t ≤ c2.Pos
      · cases rest with
        | nil =>
          simp only [List.getLast?_singleton, Option.getD_some] at hlast ⊢
          have ht : t = c2.Pos := le_antisymm hcond.2 hlast
          rw [GetInterpolatedColorFor, if_pos hcond, ht,
            div_self (sub_ne_zero.mpr (ne_of_gt h12)), hb1]
          exact Clamped_of_inGamut (hgam c2 (List.mem_cons_of_mem c1 (List.mem_cons_self _ _)))
        | cons c3 rest2 =>
          exfalso
          rw [List.getLast?_cons_cons] at hlast
          have hmem2 : ((c3 :: rest2).getLast?).getD defaultStop ∈ c3 :: rest2 :=
            getLastD_mem _ _ (by simp)
          have hlt : c2.Pos < (((c3 :: rest2).getLast?).getD defaultStop).Pos :=
            (List.pairwise_cons.mp hpair2).1 _ hmem2
          have ht2 := hcond.2
          linarith
      · rw [GetInterpolatedColorFor, if_neg hcond]
        exact ih hpair2 hgam2 t (by simp) hlast

/-- Querying `GetYRange` exactly at stop `i`'s position (`i > 0`) yields
the *lower* enclosing stop's `yRange`: stop `i-1`'s, not stop `i`'s. -/
theorem yrange_at_stop :
    ∀ (gt : List GradientStop), List.Pairwise (fun a b => a.Pos < b.Pos) gt →
      ∀ i, 0 < i → i < gt.length →
      GetYRange gt ((gt.getD i defaultStop).Pos) = (gt.getD (i - 1) defaultStop).YRange := by
  intro gt
  induction gt with
  | nil => intro _ i _ hi; simp at hi
  | cons c1 tl ih =>
    intro hpair i hpos hi
    cases tl with
    | nil =>
      exfalso
      simp only [List.length_cons, List.length_nil] at hi
      omega
    | cons c2 rest =>
      have h12 : c1.Pos < c2.Pos :=
        (List.pairwise_cons.mp hpair).1 c2 (List.mem_cons_self c2 rest)
      have hpair2 : List.Pairwise (fun a b : GradientStop => a.Pos < b.Pos) (c2 :: rest) :=
        (List.pairwise_cons.mp hpair).2
      obtain ⟨j, rfl⟩ : ∃ j, i = j + 1 := ⟨i - 1, by omega⟩
      cases j with
      | zero =>
        simp only [List.getD_cons_succ, List.getD_cons_zero, Nat.add_sub_cancel]
        rw [GetYRange, if_pos ⟨le_of_lt h12, le_refl c2.Pos⟩]
      | succ k =>
        have hk : k < rest.length := by
          simp only [List.length_cons] at hi
          omega
        have hmemk : rest.getD k defaultStop ∈ rest := by
          rw [List.getD_eq_getElem rest defaultStop hk]
          exact List.getElem_mem hk
        have hgt2 : c2.Pos < (rest.getD k defaultStop).Pos :=
          (List.pairwise_cons.mp hpair2).1 _ hmemk
        simp only [List.getD_cons_succ, Nat.add_sub_cancel]
        rw [GetYRange, if_neg (fun hcond => absurd hcond.2 (not_le.mpr hgt2))]
        have hrec := ih hpair2 (k + 1) (by omega) (by simpa using hk)
        simpa only [List.getD_cons_succ, Nat.add_sub_cancel] using hrec

/-- Querying `GetYRange` at the first stop's position yields the first
stop's `yRange`. -/
theorem yrange_first :
    ∀ (gt : List GradientStop), List.Pairwise (fun a b => a.Pos < b.Pos) gt → gt ≠ [] →
      GetYRange gt ((gt.getD 0 defaultStop).Pos) = (gt.getD 0 defaultStop).YRange := by
  intro gt hpair hne
  cases gt with
  | nil => exact absurd rfl hne
  | cons c1 tl =>
    cases tl with
    | nil => rfl
    | cons c2 rest =>
      have h12 : c1.Pos < c2.Pos :=
        (List.pairwise_cons.mp hpair).1 c2 (List.mem_cons_self c2 rest)
      simp only [List.getD_cons_zero]
      rw [GetYRange, if_pos ⟨le_refl c1.Pos, le_of_lt h12⟩]

/-- Only queries strictly past the last stop's position fall through to
the last stop's `yRange`. -/
theorem yrange_past_last :
    ∀ (gt : List GradientStop), List.Pairwise (fun a b => a.Pos < b.Pos) gt → gt ≠ [] →
      ∀ t : ℚ, ((gt.getLast?).getD defaultStop).Pos < t →
      GetYRange gt t = ((gt.getLast?).getD defaultStop).YRange := by
  intro gt
  induction gt with
  | nil => intro _ h _ _; exact absurd rfl h
  | cons c1 tl ih =>
    intro hpair hne t hlast
    cases tl with
    | nil =>
      simp only [List.getLast?_singleton, Option.getD_some]
      rfl
    | cons c2 rest =>
      have hpair2 : List.Pairwise (fun a b : GradientStop => a.Pos < b.Pos) (c2 :: rest) :=
        (List.pairwise_cons.mp hpair).2
      rw [List.getLast?_cons_cons] at hlast ⊢
      have hc2last : c2.Pos ≤ (((c2 :: rest).getLast?).getD defaultStop).Pos := by
        cases rest with
        | nil => simp [List.getLast?_singleton]
        | cons c3 rest2 =>
          rw [List.getLast?_cons_cons]
          have hmem2 : ((c3 :: rest2).getLast?).getD defaultStop ∈ c3 :: rest2 :=
            getLastD_mem _ _ (by simp)
          exact le_of_lt ((List.pairwise_cons.mp hpair2).1 _ hmem2)
      have hcond : ¬(c1.Pos ≤ t ∧ t ≤ c2.Pos) :=
        fun hc => absurd hc.2 (not_le.mpr (lt_of_le_of_lt hc2last hlast))
      rw [GetYRange, if_neg hcond]
      exact ih hpair2 (by simp) t hlast

/-- C8 counterexample: a two-stop table with strictly increasing
positions 0 and 1; querying `GetYRange` at exactly the last stop's
position (1) returns stop 0's `yRange`, not the last stop's — refuting
"any query ≥ the last stop's position returns the last stop's yRange". -/
theorem claim8_counterexample :
    List.Pairwise (fun a b : GradientStop => a.Pos < b.Pos)
      [⟨⟨0, 0, 0⟩, 0, (0, 0)⟩, ⟨⟨1, 1, 1⟩, 1, (50, 60)⟩]
    ∧ (([⟨⟨0, 0, 0⟩, 0, (0, 0)⟩, (⟨⟨1, 1, 1⟩, 1, (50, 60)⟩ : GradientStop)].getLast?).getD
        defaultStop).Pos ≤ 1
    ∧ GetYRange [⟨⟨0, 0, 0⟩, 0, (0, 0)⟩, ⟨⟨1, 1, 1⟩, 1, (50, 60)⟩] 1
        ≠ (([⟨⟨0, 0, 0⟩, 0, (0, 0)⟩, (⟨⟨1, 1, 1⟩, 1, (50, 60)⟩ : GradientStop)].getLast?).getD
            defaultStop).YRange := by
  refine ⟨?_, ?_, ?_⟩ <;> decide

/-- C8 amended: for a gradient table with strictly increasing stop
positions and in-gamut stop colors, with the external blend satisfying
its endpoint laws: `GetInterpolatedColorFor` queried exactly at any
stop's position returns that stop's color, and at or past the last
stop's position returns the last stop's color; `GetYRange` at the first
stop's position returns the first stop's `yRange`, at stop `i`'s
position for `i > 0` returns stop `i-1`'s `yRange` (the lower enclosing
stop — in particular, at exactly the last stop's position it returns the
second-to-last stop's), and only strictly past the last stop's position
returns the last stop's `yRange`. -/
theorem claim8_interpolation (blend : Color → Color → ℚ → Color)
    (hb0 : ∀ c d : Color, blend c d 0 = c) (hb1 : ∀ c d : Color, blend c d 1 = d)
    (gt : List GradientStop) (hmono : List.Pairwise (fun a b => a.Pos < b.Pos) gt)
    (hgamut : ∀ s ∈ gt, InGamut s.Col) (hne : gt ≠ []) :
    (∀ i, i < gt.length →
        GetInterpolatedColorFor blend gt ((gt.getD i defaultStop).Pos)
          = (gt.getD i defaultStop).Col)
    ∧ (∀ t : ℚ, ((gt.getLast?).getD defaultStop).Pos ≤ t →
        GetInterpolatedColorFor blend gt t = ((gt.getLast?).getD defaultStop).Col)
    ∧ GetYRange gt ((gt.getD 0 defaultStop).Pos) = (gt.getD 0 defaultStop).YRange
    ∧ (∀ i, 0 < i → i < gt.length →
        GetYRange gt ((gt.getD i defaultStop).Pos) = (gt.getD (i - 1) defaultStop).YRange)
    ∧ (∀ t : ℚ, ((gt.getLast?).getD defaultStop).Pos < t →
        GetYRange gt t = ((gt.getLast?).getD defaultStop).YRange) := by
  exact ⟨interp_at_stop blend hb0 hb1 gt hmono hgamut,
    fun t ht => interp_last blend hb1 gt hmono hgamut t hne ht,
    yrange_first gt hmono hne,
    yrange_at_stop gt hmono,
    fun t ht => yrange_past_last gt hmono hne t ht⟩

/-- A concrete strictly increasing in-gamut two-stop table for the C8
witness. -/
def gtW : List GradientStop := [⟨⟨0, 0, 0⟩, 0, (0, 0)⟩, ⟨⟨1, 0, 0⟩, 1, (50, 60)⟩]

/-- C8 witness: the amended theorem instantiated at `gtW` with the
linear blend. -/
theorem claim8_witness :
    GetYRange gtW ((gtW.getD 0 defaultStop).Pos) = (gtW.getD 0 defaultStop).YRange
    ∧ GetYRange gtW 2 = ((gtW.getLast?).getD defaultStop).YRange
    ∧ GetYRange gtW ((gtW.getD 1 defaultStop).Pos) = (gtW.getD 0 defaultStop).YRange := by
  have hb0 : ∀ c d : Color, blendRgb c d 0 = c := by
    intro c d
    cases c
    cases d
    simp [blendRgb]
  have hb1 : ∀ c d : Color, blendRgb c d 1 = d := by
    intro c d
    cases c
    cases d
    simp [blendRgb]
  have h := claim8_interpolation blendRgb hb0 hb1 gtW (by decide) (by decide) (by decide)
  exact ⟨h.2.2.1, h.2.2.2.2 2 (by decide), h.2.2.2.1 1 (by decide) (by decide)⟩

end Stash

